import Mathlib

/-!
Shallow embedding of the comment threading / ranking / voting logic of the
legal-simplifier repository.

Source files embedded:
  - src/app/api/policies/[id]/comments/route.ts  (POST = createComment, GET = listComments)
  - src/app/api/comments/[id]/vote/route.ts      (POST = voteComment)
  - src/app/api/comments/[id]/route.ts           (DELETE = deleteComment)
  - prisma migrations (Comment / Policy / User columns)

Modelling conventions:
  - Database TEXT ids are modelled as opaque Nat labels; timestamps as Nat.
  - JS `Array.prototype.sort` (stable since ES2019) is modelled by `stableSort`,
    a stable insertion sort; Prisma `orderBy` is likewise modelled by `stableSort`
    over the filtered table, which fixes tie order to table order (a DB would
    leave ties unspecified; no claim rests on tie order of equal timestamps).
  - JS floating-point division in the controversy score is modelled exactly
    over ℚ; vote counters (Postgres INTEGER, only ever incremented) as Nat.
  - JS string trimming and length are modelled with JS semantics: the full
    ECMAScript whitespace set and UTF-16 code-unit counts.
  - Fields never consulted by the embedded logic (updatedAt, user name/email,
    the serialized user sub-object of responses) are omitted.
-/

open scoped List

/-- Insert an element into a list, in front of the first entry `b` with
`le a b = true`.  Building block of the stable sort. -/
def insertSorted (le : α → α → Bool) (a : α) : List α → List α
  | [] => [a]
  | b :: l => if le a b then a :: b :: l else b :: insertSorted le a l

/-- Stable insertion sort: the model of JS stable `Array.prototype.sort`
with comparator `le` (here `le a b = true` means `a` may come before `b`). -/
def stableSort (le : α → α → Bool) : List α → List α
  | [] => []
  | a :: l => insertSorted le a (stableSort le l)

/-- Comment row (table `Comment` of the prisma schema). -/
structure Comment where
  id : Nat
  content : String
  deletedAt : Option Nat
  createdAt : Nat
  userId : Nat
  policyId : Nat
  parentId : Option Nat
  upvotes : Nat
  downvotes : Nat
deriving DecidableEq, Repr

/-- User row (only the columns the embedded routes consult). -/
structure User where
  id : Nat
  clerkId : Nat
deriving DecidableEq, Repr

/-- Policy row (only the columns the embedded routes consult). -/
structure Policy where
  id : Nat
  deletedAt : Option Nat
  published : Bool
deriving DecidableEq, Repr

/-- The database state seen by the routes. -/
structure DB where
  policies : List Policy
  users : List User
  comments : List Comment
deriving DecidableEq, Repr

/-- Popularity score `upvotes - downvotes` used by the `popular` sort mode. -/
def popScore (c : Comment) : Int :=
  (c.upvotes : Int) - (c.downvotes : Int)

/-- The `controversyScore` closure of the GET handler:
`total === 0 ? 0 : total / (Math.abs(upvotes - downvotes) + 1)`. -/
def controversyScore (c : Comment) : ℚ :=
  let total := c.upvotes + c.downvotes
  if total = 0 then 0
  else (total : ℚ) / ((((c.upvotes : Int) - (c.downvotes : Int)).natAbs : ℚ) + 1)

/-- Comparator order `createdAt` descending (Prisma `orderBy: { createdAt: "desc" }`). -/
def descByCreated (a b : Comment) : Bool :=
  decide (b.createdAt ≤ a.createdAt)

/-- Comparator order `createdAt` ascending (reply ordering). -/
def ascByCreated (a b : Comment) : Bool :=
  decide (a.createdAt ≤ b.createdAt)

/-- The `replies` include of both GET queries: non-deleted children of a
comment, ordered `createdAt` ascending. -/
def liveReplies (db : DB) (cid : Nat) : List Comment :=
  stableSort ascByCreated
    (db.comments.filter (fun r => decide (r.parentId = some cid ∧ r.deletedAt = none)))

/-- Top-level non-deleted comments of a policy ordered `createdAt` descending:
the base relation of the main GET query. -/
def topLevelLive (db : DB) (policyId : Nat) : List Comment :=
  stableSort descByCreated
    (db.comments.filter
      (fun c => decide (c.policyId = policyId ∧ c.parentId = none ∧ c.deletedAt = none)))

/-- Prisma keyset cursor (`cursor: { id }, skip: 1`): resume the ordered scan
immediately after the row carrying the cursor id (empty when absent). -/
def applyCursor (cursor : Option Nat) (l : List Comment) : List Comment :=
  match cursor with
  | none => l
  | some cur => (l.dropWhile (fun c => decide (c.id ≠ cur))).drop 1

/-- A top-level comment bundled with its included replies. -/
structure CommentWithReplies where
  comment : Comment
  replies : List Comment
deriving DecidableEq, Repr

/-- Attach the live, oldest-first replies to a top-level comment. -/
def withReplies (db : DB) (c : Comment) : CommentWithReplies :=
  ⟨c, liveReplies db c.id⟩

/-- The main GET query: top-level live comments, cursor applied only in
`newest` mode, `take` = 200 for the in-memory sort modes and page size + 1
otherwise, replies included. -/
def fetchTopLevel (db : DB) (policyId : Nat) (sort : String) (cursor : Option Nat) :
    List CommentWithReplies :=
  let base := topLevelLive db policyId
  let positioned := if cursor.isSome ∧ sort = "newest" then applyCursor cursor base else base
  let takeN := if sort = "popular" ∨ sort = "controversial" then 200 else 21
  (positioned.take takeN).map (withReplies db)

/-- Does a comment have at least one non-deleted reply?
(`replies: { some: { deletedAt: null } }`). -/
def hasLiveReply (db : DB) (cid : Nat) : Bool :=
  db.comments.any (fun r => decide (r.parentId = some cid ∧ r.deletedAt = none))

/-- The second GET query: soft-deleted top-level comments of the policy that
still have at least one non-deleted reply, `createdAt` descending, all of
them (no `take`), replies included. -/
def deletedWithLiveReplies (db : DB) (policyId : Nat) : List CommentWithReplies :=
  (stableSort descByCreated
    (db.comments.filter
      (fun c =>
        decide (c.policyId = policyId ∧ c.parentId = none ∧ c.deletedAt ≠ none) &&
        hasLiveReply db c.id))).map (withReplies db)

/-- The `seen`-set deduplication loop of the GET handler (first occurrence of
each id wins). -/
def dedupById (seen : List Nat) : List CommentWithReplies → List CommentWithReplies
  | [] => []
  | c :: rest =>
      if c.comment.id ∈ seen then dedupById seen rest
      else c :: dedupById (c.comment.id :: seen) rest

/-- `allComments` after concatenation and deduplication: the candidate pool
handed to the ranking step. -/
def assembleCandidates (db : DB) (policyId : Nat) (sort : String) (cursor : Option Nat) :
    List CommentWithReplies :=
  dedupById [] (fetchTopLevel db policyId sort cursor ++ deletedWithLiveReplies db policyId)

/-- Comparator of the `popular` in-memory sort. -/
def popLe (a b : CommentWithReplies) : Bool :=
  decide (popScore b.comment ≤ popScore a.comment)

/-- Comparator of the `controversial` in-memory sort. -/
def contLe (a b : CommentWithReplies) : Bool :=
  decide (controversyScore b.comment ≤ controversyScore a.comment)

/-- The ranking step: in-memory stable sort for `popular` / `controversial`,
identity (query order) for every other sort value. -/
def rankCandidates (sort : String) (l : List CommentWithReplies) : List CommentWithReplies :=
  if sort = "popular" then stableSort popLe l
  else if sort = "controversial" then stableSort contLe l
  else l

/-- Successful GET response body. -/
structure ListOk where
  comments : List CommentWithReplies
  nextCursor : Option Nat
  hasMore : Bool
  totalCount : Nat
deriving DecidableEq, Repr

/-- GET outcome: 404 (policy missing or soft-deleted) or the page. -/
inductive ListResult where
  | notFound
  | ok (r : ListOk)
deriving DecidableEq, Repr

/-- The GET policy lookup: `findUnique where { id, deletedAt: null }`. -/
def findPolicy (db : DB) (policyId : Nat) : Option Policy :=
  db.policies.find? (fun p => decide (p.id = policyId ∧ p.deletedAt = none))

/-- The final `totalCount` query: all non-deleted comments of the policy,
top-level and replies alike. -/
def countNonDeleted (db : DB) (policyId : Nat) : Nat :=
  (db.comments.filter (fun c => decide (c.policyId = policyId ∧ c.deletedAt = none))).length

/-- GET /api/policies/[id]/comments: list one page of threaded comments.
`sort` is the raw query parameter after the `|| "newest"` default. -/
def listComments (db : DB) (policyId : Nat) (sort : String) (cursor : Option Nat) :
    ListResult :=
  match findPolicy db policyId with
  | none => .notFound
  | some _ =>
      let ranked := rankCandidates sort (assembleCandidates db policyId sort cursor)
      let hasMore := decide (20 < ranked.length)
      let page :=
        if sort = "popular" ∨ sort = "controversial" then ranked.take 20
        else if hasMore then ranked.take 20 else ranked
      let nextCursor := if hasMore then (page.getLast?).map (fun c => c.comment.id) else none
      .ok ⟨page, nextCursor, hasMore, countNonDeleted db policyId⟩

/-- Request body `content` field: absent / JSON-non-string / a string. -/
inductive BodyContent where
  | missing
  | nonString
  | str (s : String)
deriving DecidableEq, Repr

/-- POST (create comment) outcome.  `invalidContent`, `contentTooLong` and
`replyToReply` are the 400 (Invalid) responses; `policyNotFound` and
`parentNotFound` the 404 responses. -/
inductive CreateResult where
  | unauthenticated
  | invalidContent
  | contentTooLong
  | policyNotFound
  | parentNotFound
  | replyToReply
  | created (c : Comment)
deriving DecidableEq, Repr

/-- The characters JS `String.prototype.trim` strips: ECMAScript WhiteSpace
(TAB, VT, FF, ZWNBSP and the Zs space separators U+0020, U+00A0, U+1680,
U+2000..U+200A, U+202F, U+205F, U+3000) together with the LineTerminators
LF, CR, U+2028 and U+2029. -/
def isJsWhitespace (c : Char) : Bool :=
  decide (c.toNat = 0x09 ∨ c.toNat = 0x0A ∨ c.toNat = 0x0B ∨ c.toNat = 0x0C ∨
    c.toNat = 0x0D ∨ c.toNat = 0x20 ∨ c.toNat = 0xA0 ∨ c.toNat = 0x1680 ∨
    (0x2000 ≤ c.toNat ∧ c.toNat ≤ 0x200A) ∨ c.toNat = 0x2028 ∨ c.toNat = 0x2029 ∨
    c.toNat = 0x202F ∨ c.toNat = 0x205F ∨ c.toNat = 0x3000 ∨ c.toNat = 0xFEFF)

/-- JS `String.prototype.trim`, modelled executably over the character list
(Lean's own `String.trim` is not kernel-reducible, and strips a smaller
whitespace set than JS). -/
def trimString (s : String) : String :=
  ⟨((s.data.dropWhile isJsWhitespace).reverse.dropWhile isJsWhitespace).reverse⟩

/-- JS `String.prototype.length`: the number of UTF-16 code units — an astral
(non-BMP) character counts as a surrogate pair of two units. -/
def utf16Length (s : String) : Nat :=
  (s.data.map (fun c => if c.toNat < 0x10000 then 1 else 2)).sum

/-- POST /api/policies/[id]/comments: create a comment or reply.
`newUserId`, `newCommentId`, `now` stand for the id/timestamp generation the
database performs on insert. -/
def createComment (db : DB) (clerkId : Option Nat) (policyId : Nat)
    (content : BodyContent) (parentId : Option Nat)
    (newUserId newCommentId now : Nat) : CreateResult × DB :=
  match clerkId with
  | none => (.unauthenticated, db)
  | some ck =>
      match content with
      | .missing => (.invalidContent, db)
      | .nonString => (.invalidContent, db)
      | .str s =>
          if trimString s = "" then (.invalidContent, db)
          else if 2000 < utf16Length (trimString s) then (.contentTooLong, db)
          else
            match db.policies.find?
                (fun p => decide (p.id = policyId ∧ p.deletedAt = none ∧ p.published = true)) with
            | none => (.policyNotFound, db)
            | some _ =>
                let parentErr : Option CreateResult :=
                  match parentId with
                  | none => none
                  | some pc =>
                      match db.comments.find?
                          (fun c => decide (c.id = pc ∧ c.policyId = policyId ∧ c.deletedAt = none)) with
                      | none => some CreateResult.parentNotFound
                      | some parent =>
                          if parent.parentId = none then none
                          else some CreateResult.replyToReply
                match parentErr with
                | some e => (e, db)
                | none =>
                    let dbUser :=
                      match db.users.find? (fun u => decide (u.clerkId = ck)) with
                      | some u => (u, db.users)
                      | none =>
                          let u : User := ⟨newUserId, ck⟩
                          (u, db.users ++ [u])
                    let c : Comment :=
                      { id := newCommentId, content := trimString s, deletedAt := none,
                        createdAt := now, userId := dbUser.1.id, policyId := policyId,
                        parentId := parentId, upvotes := 0, downvotes := 0 }
                    (.created c, { db with users := dbUser.2, comments := db.comments ++ [c] })

/-- Vote outcome; `ok` carries the updated counter pair the route returns. -/
inductive VoteResult where
  | unauthenticated
  | invalidVote
  | notFound
  | ok (upvotes downvotes : Nat)
deriving DecidableEq, Repr

/-- The conditional increment of the vote update. -/
def bumpVote (dir : String) (c : Comment) : Comment :=
  if dir = "up" then { c with upvotes := c.upvotes + 1 }
  else { c with downvotes := c.downvotes + 1 }

/-- POST /api/comments/[id]/vote: increment one counter of a live comment. -/
def voteComment (db : DB) (clerkId : Option Nat) (commentId : Nat) (dir : String) :
    VoteResult × DB :=
  match clerkId with
  | none => (.unauthenticated, db)
  | some _ =>
      if dir ≠ "up" ∧ dir ≠ "down" then (.invalidVote, db)
      else
        match db.comments.find? (fun c => decide (c.id = commentId ∧ c.deletedAt = none)) with
        | none => (.notFound, db)
        | some c =>
            let c2 := bumpVote dir c
            (.ok c2.upvotes c2.downvotes,
             { db with
                comments := db.comments.map
                  (fun x => if x.id = commentId then bumpVote dir x else x) })

/-- DELETE outcome.  `error` is the 500 path (comment row with no user row,
which makes the `include` dereference throw before any write). -/
inductive DeleteResult where
  | unauthenticated
  | notFound
  | forbidden
  | error
  | deleted
deriving DecidableEq, Repr

/-- DELETE /api/comments/[id]: author-only soft delete. -/
def deleteComment (db : DB) (clerkId : Option Nat) (commentId : Nat) (now : Nat) :
    DeleteResult × DB :=
  match clerkId with
  | none => (.unauthenticated, db)
  | some ck =>
      match db.comments.find? (fun c => decide (c.id = commentId ∧ c.deletedAt = none)) with
      | none => (.notFound, db)
      | some c =>
          match db.users.find? (fun u => decide (u.id = c.userId)) with
          | none => (.error, db)
          | some u =>
              if u.clerkId ≠ ck then (.forbidden, db)
              else
                (.deleted,
                 { db with
                    comments := db.comments.map
                      (fun x => if x.id = commentId then { x with deletedAt := some now } else x) })

/-- Projection: page of a list result (empty on 404). -/
def commentsOf : ListResult → List CommentWithReplies
  | .notFound => []
  | .ok r => r.comments

/-- Projection: `nextCursor` of a list result. -/
def nextCursorOf : ListResult → Option Nat
  | .notFound => none
  | .ok r => r.nextCursor

/-- Projection: `totalCount` of a list result (`none` on 404). -/
def totalCountOf : ListResult → Option Nat
  | .notFound => none
  | .ok r => some r.totalCount

/-! Generic facts about the stable insertion sort and the dedup loop. -/

theorem insertSorted_perm (le : α → α → Bool) (a : α) (l : List α) :
    (insertSorted le a l).Perm (a :: l) := by
  induction l with
  | nil => simp [insertSorted]
  | cons b t ih =>
      by_cases h : le a b = true
      · simp [insertSorted, h]
      · simp only [insertSorted, h, if_false, Bool.false_eq_true]
        exact (ih.cons b).trans (List.Perm.swap a b t)

theorem stableSort_perm (le : α → α → Bool) (l : List α) : (stableSort le l).Perm l := by
  induction l with
  | nil => simp [stableSort]
  | cons a t ih => exact (insertSorted_perm le a _).trans (ih.cons a)

theorem mem_stableSort (le : α → α → Bool) (l : List α) (x : α) :
    x ∈ stableSort le l ↔ x ∈ l :=
  (stableSort_perm le l).mem_iff

theorem pairwise_insertSorted (le : α → α → Bool)
    (htot : ∀ x y, le x y = true ∨ le y x = true)
    (htrans : ∀ x y z, le x y = true → le y z = true → le x z = true)
    (a : α) (l : List α) (hl : l.Pairwise (fun x y => le x y = true)) :
    (insertSorted le a l).Pairwise (fun x y => le x y = true) := by
  induction l with
  | nil => simp [insertSorted]
  | cons b t ih =>
      rcases List.pairwise_cons.mp hl with ⟨hb, ht⟩
      by_cases h : le a b = true
      · simp only [insertSorted, h, if_true]
        refine List.pairwise_cons.mpr ⟨?_, hl⟩
        intro y hy
        rcases List.mem_cons.mp hy with rfl | hy2
        · exact h
        · exact htrans a b y h (hb y hy2)
      · simp only [insertSorted, h, if_false, Bool.false_eq_true]
        refine List.pairwise_cons.mpr ⟨?_, ih ht⟩
        intro y hy
        have hy2 : y ∈ a :: t := (insertSorted_perm le a t).mem_iff.mp hy
        rcases List.mem_cons.mp hy2 with h4 | hy3
        · rw [h4]
          rcases htot a b with h1 | h1
          · exact absurd h1 h
          · exact h1
        · exact hb y hy3

theorem pairwise_stableSort (le : α → α → Bool)
    (htot : ∀ x y, le x y = true ∨ le y x = true)
    (htrans : ∀ x y z, le x y = true → le y z = true → le x z = true)
    (l : List α) :
    (stableSort le l).Pairwise (fun x y => le x y = true) := by
  induction l with
  | nil => simp [stableSort]
  | cons a t ih => exact pairwise_insertSorted le htot htrans a _ ih

theorem insertSorted_split (le : α → α → Bool) (a : α) (l : List α) :
    ∃ u v, l = u ++ v ∧ insertSorted le a l = u ++ a :: v ∧
      ∀ x ∈ u, ¬ le a x = true := by
  induction l with
  | nil => exact ⟨[], [], rfl, rfl, by simp⟩
  | cons b t ih =>
      by_cases h : le a b = true
      · exact ⟨[], b :: t, rfl, by simp [insertSorted, h], by simp⟩
      · rcases ih with ⟨u, v, h1, h2, h3⟩
        refine ⟨b :: u, v, by simp [h1], ?_, ?_⟩
        · simp only [insertSorted, h, if_false, Bool.false_eq_true, h2, List.cons_append]
        · intro x hx
          rcases List.mem_cons.mp hx with rfl | hx2
          · exact h
          · exact h3 x hx2

theorem pair_sublist_stableSort (le : α → α → Bool)
    {a b : α} (hba : le b a = true) :
    ∀ l : List α, [a, b] <+ stableSort le l → [a, b] <+ l := by
  intro l
  induction l with
  | nil => simp [stableSort]
  | cons x t ih =>
      intro h
      rcases insertSorted_split le x (stableSort le t) with ⟨u, v, h1, h2, h3⟩
      rw [stableSort, h2] at h
      rcases List.sublist_append_iff.mp h with ⟨l1, l2, hl, hsub1, hsub2⟩
      rcases l1 with _ | ⟨c, l1⟩
      · simp only [List.nil_append] at hl
        subst hl
        cases hsub2 with
        | cons _ htail =>
            have hst : [a, b] <+ stableSort le t := by
              rw [h1]
              exact htail.trans (List.sublist_append_right u v)
            exact (ih hst).cons x
        | cons₂ _ htail =>
            have hbt : b ∈ t := by
              refine (stableSort_perm le t).mem_iff.mp ?_
              rw [h1]
              exact List.mem_append_right u (List.singleton_sublist.mp htail)
            exact (List.singleton_sublist.mpr hbt).cons₂ a
      rcases l1 with _ | ⟨d, l1⟩
      · simp only [List.cons_append, List.nil_append] at hl
        injection hl with hac hl2
        subst hac
        subst hl2
        have hau : a ∈ u := List.singleton_sublist.mp hsub1
        cases hsub2 with
        | cons _ htail =>
            have hst : [a, b] <+ stableSort le t := by
              rw [h1]
              exact List.Sublist.append hsub1 htail
            exact (ih hst).cons x
        | cons₂ _ _ =>
            exact absurd hba (h3 a hau)
      · simp only [List.cons_append] at hl
        injection hl with hac hrest
        injection hrest with hbd hnil
        subst hac
        subst hbd
        rcases List.append_eq_nil.mp hnil.symm with ⟨rfl, rfl⟩
        have hst : [a, b] <+ stableSort le t := by
          rw [h1]
          exact hsub1.trans (List.sublist_append_left u v)
        exact (ih hst).cons x

theorem dedupById_sublist (seen : List Nat) (l : List CommentWithReplies) :
    dedupById seen l <+ l := by
  induction l generalizing seen with
  | nil => simp [dedupById]
  | cons c t ih =>
      by_cases h : c.comment.id ∈ seen
      · simp only [dedupById, if_pos h]
        exact (ih seen).cons c
      · simp only [dedupById, if_neg h]
        exact (ih _).cons₂ c

theorem dedupById_ids (seen : List Nat) (l : List CommentWithReplies) :
    ((dedupById seen l).map (fun x => x.comment.id)).Nodup ∧
    ∀ i ∈ (dedupById seen l).map (fun x => x.comment.id), i ∉ seen := by
  induction l generalizing seen with
  | nil => simp [dedupById]
  | cons c t ih =>
      by_cases h : c.comment.id ∈ seen
      · simp only [dedupById, if_pos h]
        exact ih seen
      · simp only [dedupById, if_neg h, List.map_cons]
        rcases ih (c.comment.id :: seen) with ⟨h1, h2⟩
        constructor
        · refine List.nodup_cons.mpr ⟨?_, h1⟩
          intro hmem
          exact (h2 _ hmem) (List.mem_cons_self _ _)
        · intro i hi
          rcases List.mem_cons.mp hi with rfl | hi2
          · exact h
          · intro hs
            exact (h2 i hi2) (List.mem_cons_of_mem _ hs)

theorem dedupById_eq_self (seen : List Nat) (l : List CommentWithReplies)
    (hnd : (l.map (fun x => x.comment.id)).Nodup)
    (hdis : ∀ i ∈ l.map (fun x => x.comment.id), i ∉ seen) :
    dedupById seen l = l := by
  induction l generalizing seen with
  | nil => rfl
  | cons c t ih =>
      have hc : c.comment.id ∉ seen := hdis _ (by simp)
      simp only [dedupById, if_neg hc]
      rw [List.map_cons] at hnd
      have hnd2 := List.nodup_cons.mp hnd
      congr 1
      refine ih _ hnd2.2 ?_
      intro i hi
      simp only [List.mem_cons]
      rintro (rfl | hs)
      · exact hnd2.1 hi
      · exact hdis i (by simp [hi]) hs

/-! Comparator properties. -/

theorem descByCreated_total : ∀ x y, descByCreated x y = true ∨ descByCreated y x = true := by
  intro x y
  simp only [descByCreated, decide_eq_true_eq]
  omega

theorem descByCreated_trans :
    ∀ x y z, descByCreated x y = true → descByCreated y z = true → descByCreated x z = true := by
  intro x y z
  simp only [descByCreated, decide_eq_true_eq]
  omega

theorem ascByCreated_total : ∀ x y, ascByCreated x y = true ∨ ascByCreated y x = true := by
  intro x y
  simp only [ascByCreated, decide_eq_true_eq]
  omega

theorem ascByCreated_trans :
    ∀ x y z, ascByCreated x y = true → ascByCreated y z = true → ascByCreated x z = true := by
  intro x y z
  simp only [ascByCreated, decide_eq_true_eq]
  omega

theorem popLe_total : ∀ x y, popLe x y = true ∨ popLe y x = true := by
  intro x y
  simp only [popLe, decide_eq_true_eq]
  omega

theorem popLe_trans : ∀ x y z, popLe x y = true → popLe y z = true → popLe x z = true := by
  intro x y z
  simp only [popLe, decide_eq_true_eq]
  omega

theorem contLe_total : ∀ x y, contLe x y = true ∨ contLe y x = true := by
  intro x y
  simp only [contLe, decide_eq_true_eq]
  exact le_total _ _

theorem contLe_trans : ∀ x y z, contLe x y = true → contLe y z = true → contLe x z = true := by
  intro x y z
  simp only [contLe, decide_eq_true_eq]
  intro h1 h2
  exact le_trans h2 h1

/-! Facts about the GET pipeline pieces. -/

theorem mem_topLevelLive (db : DB) (pid : Nat) (c : Comment) :
    c ∈ topLevelLive db pid ↔
      c ∈ db.comments ∧ c.policyId = pid ∧ c.parentId = none ∧ c.deletedAt = none := by
  rw [topLevelLive, mem_stableSort, List.mem_filter]
  simp

theorem pairwise_topLevelLive (db : DB) (pid : Nat) :
    (topLevelLive db pid).Pairwise (fun x y => y.createdAt ≤ x.createdAt) := by
  refine (pairwise_stableSort descByCreated descByCreated_total descByCreated_trans _).imp ?_
  intro x y h
  simpa [descByCreated] using h

theorem mem_liveReplies (db : DB) (cid : Nat) (r : Comment) :
    r ∈ liveReplies db cid ↔ r ∈ db.comments ∧ r.parentId = some cid ∧ r.deletedAt = none := by
  rw [liveReplies, mem_stableSort, List.mem_filter]
  simp

theorem fetchTopLevel_eq (db : DB) (pid : Nat) (sort : String) (cursor : Option Nat) :
    ∃ t, t <+ topLevelLive db pid ∧
      fetchTopLevel db pid sort cursor = t.map (withReplies db) := by
  refine ⟨(if cursor.isSome ∧ sort = "newest" then applyCursor cursor (topLevelLive db pid)
           else topLevelLive db pid).take
            (if sort = "popular" ∨ sort = "controversial" then 200 else 21), ?_, rfl⟩
  refine (List.take_sublist _ _).trans ?_
  by_cases h : cursor.isSome ∧ sort = "newest"
  · rw [if_pos h]
    cases cursor with
    | none => exact List.Sublist.refl _
    | some k => exact (List.drop_sublist 1 _).trans (List.dropWhile_sublist _)
  · rw [if_neg h]

theorem fetchTopLevel_popular (db : DB) (pid : Nat) (cursor : Option Nat) :
    fetchTopLevel db pid "popular" cursor =
      ((topLevelLive db pid).take 200).map (withReplies db) := by
  simp [fetchTopLevel]

theorem fetchTopLevel_members (db : DB) (pid : Nat) (sort : String) (cursor : Option Nat) :
    ∀ x ∈ fetchTopLevel db pid sort cursor,
      x.comment ∈ db.comments ∧ x.comment.policyId = pid ∧ x.comment.parentId = none ∧
      x.comment.deletedAt = none ∧ x.replies = liveReplies db x.comment.id := by
  intro x hx
  rcases fetchTopLevel_eq db pid sort cursor with ⟨t, hsub, heq⟩
  rw [heq] at hx
  rcases List.mem_map.mp hx with ⟨c, hc, rfl⟩
  rcases (mem_topLevelLive db pid c).mp (hsub.mem hc) with ⟨h1, h2, h3, h4⟩
  exact ⟨h1, h2, h3, h4, rfl⟩

theorem pairwise_fetchTopLevel (db : DB) (pid : Nat) (sort : String) (cursor : Option Nat) :
    (fetchTopLevel db pid sort cursor).Pairwise
      (fun x y => y.comment.createdAt ≤ x.comment.createdAt) := by
  rcases fetchTopLevel_eq db pid sort cursor with ⟨t, hsub, heq⟩
  rw [heq, List.pairwise_map]
  exact (pairwise_topLevelLive db pid).sublist hsub

theorem mem_deletedWithLiveReplies (db : DB) (pid : Nat) (x : CommentWithReplies) :
    x ∈ deletedWithLiveReplies db pid ↔
      ∃ c, c ∈ db.comments ∧ c.policyId = pid ∧ c.parentId = none ∧ c.deletedAt ≠ none ∧
        hasLiveReply db c.id = true ∧ x = withReplies db c := by
  unfold deletedWithLiveReplies
  rw [List.mem_map]
  constructor
  · rintro ⟨c, hc, rfl⟩
    rw [mem_stableSort, List.mem_filter, Bool.and_eq_true, decide_eq_true_eq] at hc
    exact ⟨c, hc.1, hc.2.1.1, hc.2.1.2.1, hc.2.1.2.2, hc.2.2, rfl⟩
  · rintro ⟨c, h1, h2, h3, h4, h5, rfl⟩
    refine ⟨c, ?_, rfl⟩
    rw [mem_stableSort, List.mem_filter, Bool.and_eq_true, decide_eq_true_eq]
    exact ⟨h1, ⟨h2, h3, h4⟩, h5⟩

theorem pairwise_deletedWithLiveReplies (db : DB) (pid : Nat) :
    (deletedWithLiveReplies db pid).Pairwise
      (fun x y => y.comment.createdAt ≤ x.comment.createdAt) := by
  unfold deletedWithLiveReplies
  rw [List.pairwise_map]
  refine (pairwise_stableSort descByCreated descByCreated_total descByCreated_trans _).imp ?_
  intro x y h
  simpa [descByCreated] using h

theorem deletedWithLiveReplies_replies (db : DB) (pid : Nat) :
    ∀ x ∈ deletedWithLiveReplies db pid, x.replies = liveReplies db x.comment.id := by
  intro x hx
  rcases (mem_deletedWithLiveReplies db pid x).mp hx with ⟨c, _, _, _, _, _, rfl⟩
  rfl

theorem nodup_ids_topLevelLive (db : DB) (pid : Nat)
    (hnd : (db.comments.map (fun c => c.id)).Nodup) :
    ((topLevelLive db pid).map (fun c => c.id)).Nodup := by
  have h1 := (stableSort_perm descByCreated
    (db.comments.filter
      (fun c => decide (c.policyId = pid ∧ c.parentId = none ∧ c.deletedAt = none)))).map
    (fun c => c.id)
  refine h1.nodup_iff.mpr ?_
  exact List.Nodup.sublist ((List.filter_sublist _).map _) hnd

theorem nodup_ids_deletedWithLiveReplies (db : DB) (pid : Nat)
    (hnd : (db.comments.map (fun c => c.id)).Nodup) :
    ((deletedWithLiveReplies db pid).map (fun x => x.comment.id)).Nodup := by
  unfold deletedWithLiveReplies
  rw [List.map_map]
  have h1 := (stableSort_perm descByCreated
    (db.comments.filter
      (fun c =>
        decide (c.policyId = pid ∧ c.parentId = none ∧ c.deletedAt ≠ none) &&
        hasLiveReply db c.id))).map ((fun x => x.comment.id) ∘ withReplies db)
  refine h1.nodup_iff.mpr ?_
  have h2 : ((fun x => x.comment.id) ∘ withReplies db) = (fun c : Comment => c.id) := rfl
  rw [h2]
  exact List.Nodup.sublist ((List.filter_sublist _).map _) hnd

theorem nodup_ids_fetchTopLevel (db : DB) (pid : Nat) (sort : String) (cursor : Option Nat)
    (hnd : (db.comments.map (fun c => c.id)).Nodup) :
    ((fetchTopLevel db pid sort cursor).map (fun x => x.comment.id)).Nodup := by
  rcases fetchTopLevel_eq db pid sort cursor with ⟨t, hsub, heq⟩
  rw [heq, List.map_map]
  have h2 : ((fun x => x.comment.id) ∘ withReplies db) = (fun c : Comment => c.id) := rfl
  rw [h2]
  exact List.Nodup.sublist (hsub.map _) (nodup_ids_topLevelLive db pid hnd)

theorem assembleCandidates_sublist (db : DB) (pid : Nat) (sort : String) (cursor : Option Nat) :
    assembleCandidates db pid sort cursor <+
      fetchTopLevel db pid sort cursor ++ deletedWithLiveReplies db pid :=
  dedupById_sublist [] _

theorem assembleCandidates_ids_nodup (db : DB) (pid : Nat) (sort : String) (cursor : Option Nat) :
    ((assembleCandidates db pid sort cursor).map (fun x => x.comment.id)).Nodup :=
  (dedupById_ids [] _).1

theorem assembleCandidates_eq_append (db : DB) (pid : Nat) (sort : String) (cursor : Option Nat)
    (hnd : (db.comments.map (fun c => c.id)).Nodup) :
    assembleCandidates db pid sort cursor =
      fetchTopLevel db pid sort cursor ++ deletedWithLiveReplies db pid := by
  apply dedupById_eq_self
  · rw [List.map_append]
    refine List.Nodup.append (nodup_ids_fetchTopLevel db pid sort cursor hnd)
      (nodup_ids_deletedWithLiveReplies db pid hnd) ?_
    intro i hi1 hi2
    rcases List.mem_map.mp hi1 with ⟨x, hx, rfl⟩
    rcases List.mem_map.mp hi2 with ⟨y, hy, hid⟩
    rcases fetchTopLevel_members db pid sort cursor x hx with ⟨hm1, _, _, hlive, _⟩
    rcases (mem_deletedWithLiveReplies db pid y).mp hy with ⟨c, hm2, _, _, hdel, _, rfl⟩
    have heq : c = x.comment := List.inj_on_of_nodup_map hnd hm2 hm1 hid
    exact hdel (heq ▸ hlive)
  · simp

theorem rankCandidates_other (sort : String) (h1 : sort ≠ "popular")
    (h2 : sort ≠ "controversial") (l : List CommentWithReplies) :
    rankCandidates sort l = l := by
  unfold rankCandidates
  rw [if_neg h1, if_neg h2]

theorem rankCandidates_perm (sort : String) (l : List CommentWithReplies) :
    (rankCandidates sort l).Perm l := by
  unfold rankCandidates
  by_cases h1 : sort = "popular"
  · rw [if_pos h1]
    exact stableSort_perm popLe l
  · rw [if_neg h1]
    by_cases h2 : sort = "controversial"
    · rw [if_pos h2]
      exact stableSort_perm contLe l
    · rw [if_neg h2]

theorem listComments_ok_elim (db : DB) (pid : Nat) (sort : String) (cursor : Option Nat)
    (r : ListOk) (h : listComments db pid sort cursor = .ok r) :
    r.comments = (if sort = "popular" ∨ sort = "controversial"
        then (rankCandidates sort (assembleCandidates db pid sort cursor)).take 20
        else if decide (20 < (rankCandidates sort (assembleCandidates db pid sort cursor)).length) = true
          then (rankCandidates sort (assembleCandidates db pid sort cursor)).take 20
          else rankCandidates sort (assembleCandidates db pid sort cursor)) ∧
    r.hasMore = decide (20 < (rankCandidates sort (assembleCandidates db pid sort cursor)).length) ∧
    r.nextCursor = (if r.hasMore = true
        then (r.comments.getLast?).map (fun c => c.comment.id) else none) ∧
    r.totalCount = countNonDeleted db pid := by
  unfold listComments at h
  cases hfp : findPolicy db pid with
  | none =>
      rw [hfp] at h
      simp at h
  | some p =>
      rw [hfp] at h
      simp only at h
      injection h with h2
      subst h2
      exact ⟨rfl, rfl, rfl, rfl⟩

/-! Concrete databases used by counterexamples and witnesses. -/

/-- A live top-level comment with zero votes, id and creation time `i`. -/
def mkLive (i : Nat) : Comment :=
  { id := i, content := "c", deletedAt := none, createdAt := i, userId := 1,
    policyId := 1, parentId := none, upvotes := 0, downvotes := 0 }

/-- Policy 1 with: live top-level A (t=1), soft-deleted top-level D (t=2)
whose reply E (t=3) is live. -/
def exDb1 : DB :=
  { policies := [⟨1, none, true⟩],
    users := [⟨1, 11⟩],
    comments :=
      [ { id := 1, content := "A", deletedAt := none, createdAt := 1, userId := 1,
          policyId := 1, parentId := none, upvotes := 0, downvotes := 0 },
        { id := 2, content := "D", deletedAt := some 5, createdAt := 2, userId := 1,
          policyId := 1, parentId := none, upvotes := 0, downvotes := 0 },
        { id := 3, content := "E", deletedAt := none, createdAt := 3, userId := 1,
          policyId := 1, parentId := some 2, upvotes := 0, downvotes := 0 } ] }

/-- Policy 1 with 20 live top-level comments (ids/timestamps 20..1), plus a
soft-deleted top-level comment 100 (t=0) whose reply 101 is live. -/
def exDb2 : DB :=
  { policies := [⟨1, none, true⟩],
    users := [⟨1, 11⟩],
    comments :=
      ((List.range 20).map (fun i => mkLive (20 - i))) ++
      [ { id := 100, content := "D", deletedAt := some 9, createdAt := 0, userId := 1,
          policyId := 1, parentId := none, upvotes := 0, downvotes := 0 },
        { id := 101, content := "E", deletedAt := none, createdAt := 5, userId := 1,
          policyId := 1, parentId := some 100, upvotes := 0, downvotes := 0 } ] }

/-- Policy 1 with 21 live top-level comments (ids/timestamps 21..1). -/
def exDb3 : DB :=
  { policies := [⟨1, none, true⟩],
    users := [⟨1, 11⟩],
    comments := (List.range 21).map (fun i => mkLive (21 - i)) }

/-- Policy 1 with 200 live top-level comments (ids/timestamps 200..1) plus a
soft-deleted top-level comment 300 (t=0, 100 upvotes) whose reply 301 is
live, so 201 top-level comments in total. -/
def exDb4 : DB :=
  { policies := [⟨1, none, true⟩],
    users := [⟨1, 11⟩],
    comments :=
      ((List.range 200).map (fun i => mkLive (200 - i))) ++
      [ { id := 300, content := "D", deletedAt := some 9, createdAt := 0, userId := 1,
          policyId := 1, parentId := none, upvotes := 100, downvotes := 0 },
        { id := 301, content := "E", deletedAt := none, createdAt := 5, userId := 1,
          policyId := 1, parentId := some 300, upvotes := 0, downvotes := 0 } ] }

/-- All top-level comments of a policy (any deletion state), most recent
first: the reference reading of "the 200 most-recent top-level comments". -/
def mostRecentTop (db : DB) (policyId : Nat) : List Comment :=
  stableSort descByCreated
    (db.comments.filter (fun c => decide (c.policyId = policyId ∧ c.parentId = none)))

/-! Claim C1. -/

/-- C1, counterexample: with a live top-level comment at t=1 and a surfaced
soft-deleted top-level comment at t=2 (live reply), the `newest` page is
[t=1, t=2], which is not non-increasing in creation time. -/
theorem newest_not_sorted_counterexample :
    ¬ (commentsOf (listComments exDb1 1 "newest" none)).Pairwise
      (fun a b => b.comment.createdAt ≤ a.comment.createdAt) := by
  decide

/-- C1, amended: a `newest` page consists of a block of live top-level
comments followed by a block of surfaced soft-deleted ones; each block is
non-increasing in creation time, but the page as a whole need not be. -/
theorem newest_page_segments (db : DB) (pid : Nat) (cursor : Option Nat) :
    ∃ u v, commentsOf (listComments db pid "newest" cursor) = u ++ v ∧
      (∀ x ∈ u, x.comment.deletedAt = none) ∧
      (∀ x ∈ v, x.comment.deletedAt ≠ none) ∧
      u.Pairwise (fun a b => b.comment.createdAt ≤ a.comment.createdAt) ∧
      v.Pairwise (fun a b => b.comment.createdAt ≤ a.comment.createdAt) := by
  cases hres : listComments db pid "newest" cursor with
  | notFound =>
      exact ⟨[], [], by simp [commentsOf], by simp, by simp, by simp, by simp⟩
  | ok r =>
      rcases listComments_ok_elim db pid "newest" cursor r hres with ⟨hc, _, _, _⟩
      have hrank : rankCandidates "newest" (assembleCandidates db pid "newest" cursor) =
          assembleCandidates db pid "newest" cursor :=
        rankCandidates_other _ (by decide) (by decide) _
      have h1 : r.comments <+
          rankCandidates "newest" (assembleCandidates db pid "newest" cursor) := by
        rw [hc]
        split_ifs
        · exact List.take_sublist _ _
        · exact List.take_sublist _ _
        · exact List.Sublist.refl _
      rw [hrank] at h1
      have hpage : r.comments <+
          fetchTopLevel db pid "newest" cursor ++ deletedWithLiveReplies db pid :=
        h1.trans (assembleCandidates_sublist db pid "newest" cursor)
      rcases List.sublist_append_iff.mp hpage with ⟨u, v, hsplit, hu, hv⟩
      refine ⟨u, v, ?_, ?_, ?_, ?_, ?_⟩
      · exact hsplit
      · intro x hx
        exact (fetchTopLevel_members db pid _ cursor x (hu.mem hx)).2.2.2.1
      · intro x hx
        rcases (mem_deletedWithLiveReplies db pid x).mp (hv.mem hx) with
          ⟨c, _, _, _, hdel, _, rfl⟩
        exact hdel
      · exact (pairwise_fetchTopLevel db pid _ cursor).sublist hu
      · exact (pairwise_deletedWithLiveReplies db pid).sublist hv

/-- Projection: `hasMore` of a list result (`false` on 404). -/
def hasMoreOf : ListResult → Bool
  | .notFound => false
  | .ok r => r.hasMore

theorem fetchTopLevel_cursor_free (db : DB) (pid : Nat) (sort : String) (cursor : Option Nat)
    (hs : sort ≠ "newest") :
    fetchTopLevel db pid sort cursor = fetchTopLevel db pid sort none := by
  simp only [fetchTopLevel]
  have h1 : (if cursor.isSome ∧ sort = "newest"
      then applyCursor cursor (topLevelLive db pid) else topLevelLive db pid) =
      topLevelLive db pid := if_neg (fun h => hs h.2)
  have h2 : (if (none : Option Nat).isSome ∧ sort = "newest"
      then applyCursor none (topLevelLive db pid) else topLevelLive db pid) =
      topLevelLive db pid := if_neg (fun h => hs h.2)
  rw [h1, h2]

theorem assembleCandidates_cursor_free (db : DB) (pid : Nat) (sort : String)
    (cursor : Option Nat) (hs : sort ≠ "newest") :
    assembleCandidates db pid sort cursor = assembleCandidates db pid sort none := by
  unfold assembleCandidates
  rw [fetchTopLevel_cursor_free db pid sort cursor hs]

theorem listComments_cursor_free (db : DB) (pid : Nat) (sort : String) (cursor : Option Nat)
    (hs : sort ≠ "newest") :
    listComments db pid sort cursor = listComments db pid sort none := by
  unfold listComments
  rw [assembleCandidates_cursor_free db pid sort cursor hs]

/-! Claim C3. -/

/-- C3, counterexample: with 21 live top-level comments, `popular` mode has
`hasMore = true` and returns the non-null `nextCursor` of id 2, although the
claim says `nextCursor` is null for `popular`. -/
theorem popular_nextCursor_counterexample :
    nextCursorOf (listComments exDb3 1 "popular" none) = some 2 ∧
    hasMoreOf (listComments exDb3 1 "popular" none) = true := by
  decide

/-- C3, amended: every call returns at most 20 comments and a `hasMore`
boolean; `nextCursor` is non-null exactly when `hasMore` is true, for every
sort mode (not only `newest`); the `cursor` argument has no effect for
`popular` and `controversial`. -/
theorem page_contract (db : DB) (pid : Nat) (sort : String) (cursor : Option Nat) :
    (commentsOf (listComments db pid sort cursor)).length ≤ 20 ∧
    (nextCursorOf (listComments db pid sort cursor) ≠ none ↔
      hasMoreOf (listComments db pid sort cursor) = true) ∧
    ((sort = "popular" ∨ sort = "controversial") →
      listComments db pid sort cursor = listComments db pid sort none) := by
  refine ⟨?_, ?_, ?_⟩
  · cases hres : listComments db pid sort cursor with
    | notFound => simp [commentsOf]
    | ok r =>
        rcases listComments_ok_elim db pid sort cursor r hres with ⟨hc, _, _, _⟩
        show r.comments.length ≤ 20
        rw [hc]
        split_ifs with h1 h2
        · rw [List.length_take]
          exact Nat.min_le_left _ _
        · rw [List.length_take]
          exact Nat.min_le_left _ _
        · simp only [decide_eq_true_eq, not_lt] at h2
          exact h2
  · cases hres : listComments db pid sort cursor with
    | notFound => simp [nextCursorOf, hasMoreOf]
    | ok r =>
        rcases listComments_ok_elim db pid sort cursor r hres with ⟨hc, hm, hnc, _⟩
        show r.nextCursor ≠ none ↔ r.hasMore = true
        rw [hnc]
        cases hhm : r.hasMore with
        | false => simp
        | true =>
            rw [hm] at hhm
            have h20 : 20 < (rankCandidates sort (assembleCandidates db pid sort cursor)).length :=
              of_decide_eq_true hhm
            have hlen : r.comments.length = 20 := by
              rw [hc]
              split_ifs with h1 <;> rw [List.length_take] <;> omega
            have hne2 : r.comments ≠ [] := by
              intro hnil
              rw [hnil] at hlen
              simp at hlen
            rcases Option.isSome_iff_exists.mp (List.getLast?_isSome.mpr hne2) with ⟨x, hx⟩
            simp [hx]
  · intro hsort
    rcases hsort with rfl | rfl
    · exact listComments_cursor_free _ _ _ _ (by decide)
    · exact listComments_cursor_free _ _ _ _ (by decide)

theorem page_mem (db : DB) (pid : Nat) (sort : String) (cursor : Option Nat)
    (x : CommentWithReplies) (hx : x ∈ commentsOf (listComments db pid sort cursor)) :
    x ∈ fetchTopLevel db pid sort cursor ∨ x ∈ deletedWithLiveReplies db pid := by
  cases hres : listComments db pid sort cursor with
  | notFound =>
      rw [hres] at hx
      simp [commentsOf] at hx
  | ok r =>
      rw [hres] at hx
      have hx2 : x ∈ r.comments := hx
      rcases listComments_ok_elim db pid sort cursor r hres with ⟨hc, _, _, _⟩
      have hsub : r.comments <+ rankCandidates sort (assembleCandidates db pid sort cursor) := by
        rw [hc]
        split_ifs
        · exact List.take_sublist _ _
        · exact List.take_sublist _ _
        · exact List.Sublist.refl _
      have h1 := hsub.mem hx2
      have h2 := (rankCandidates_perm sort _).mem_iff.mp h1
      exact List.mem_append.mp ((assembleCandidates_sublist db pid sort cursor).mem h2)

/-! Claim C2. -/

/-- C2, counterexample: in `exDb2`, comment 100 is a soft-deleted top-level
comment of policy 1 with a live reply, yet the `newest` page (filled by 20
newer live comments, `hasMore = true`) does not contain it: surfacing loses
to pagination. -/
theorem deleted_comment_dropped_counterexample :
    (∃ c, c ∈ exDb2.comments ∧ c.id = 100 ∧ c.policyId = 1 ∧ c.parentId = none ∧
      c.deletedAt ≠ none) ∧
    hasLiveReply exDb2 100 = true ∧
    hasMoreOf (listComments exDb2 1 "newest" none) = true ∧
    ¬ (100 ∈ (commentsOf (listComments exDb2 1 "newest" none)).map (fun x => x.comment.id)) := by
  decide

/-- C2, amended: a soft-deleted top-level comment with zero live replies
never appears in any mode's output; one with at least one live reply always
enters the assembled candidate pool (its non-deleted replies attached), but
reaches the returned page only if it survives ranking/pagination; every
returned comment's reply list is exactly its non-deleted replies. -/
theorem deleted_visibility (db : DB) (pid : Nat) (sort : String) (cursor : Option Nat)
    (hnd : (db.comments.map (fun c => c.id)).Nodup) :
    (∀ x ∈ commentsOf (listComments db pid sort cursor), x.comment.deletedAt ≠ none →
      ∃ rep, rep ∈ db.comments ∧ rep.parentId = some x.comment.id ∧ rep.deletedAt = none) ∧
    (∀ c ∈ db.comments, c.policyId = pid → c.parentId = none → c.deletedAt ≠ none →
      (∃ rep, rep ∈ db.comments ∧ rep.parentId = some c.id ∧ rep.deletedAt = none) →
      withReplies db c ∈ assembleCandidates db pid sort cursor) ∧
    (∀ x ∈ commentsOf (listComments db pid sort cursor), ∀ rep : Comment,
      rep ∈ x.replies ↔
        rep ∈ db.comments ∧ rep.parentId = some x.comment.id ∧ rep.deletedAt = none) := by
  refine ⟨?_, ?_, ?_⟩
  · intro x hx hdel
    rcases page_mem db pid sort cursor x hx with h | h
    · exact absurd (fetchTopLevel_members db pid sort cursor x h).2.2.2.1 hdel
    · rcases (mem_deletedWithLiveReplies db pid x).mp h with ⟨c, _, _, _, _, hlr, rfl⟩
      rw [hasLiveReply, List.any_eq_true] at hlr
      rcases hlr with ⟨rep, hrep, hpred⟩
      rw [decide_eq_true_eq] at hpred
      exact ⟨rep, hrep, hpred.1, hpred.2⟩
  · intro c hmem hpol hpar hdel hrep
    have hx : withReplies db c ∈ deletedWithLiveReplies db pid := by
      rw [mem_deletedWithLiveReplies]
      refine ⟨c, hmem, hpol, hpar, hdel, ?_, rfl⟩
      rw [hasLiveReply, List.any_eq_true]
      rcases hrep with ⟨rep, hr1, hr2, hr3⟩
      exact ⟨rep, hr1, by rw [decide_eq_true_eq]; exact ⟨hr2, hr3⟩⟩
    rw [assembleCandidates_eq_append db pid sort cursor hnd]
    exact List.mem_append_right _ hx
  · intro x hx rep
    have hrepl : x.replies = liveReplies db x.comment.id := by
      rcases page_mem db pid sort cursor x hx with h | h
      · exact (fetchTopLevel_members db pid sort cursor x h).2.2.2.2
      · exact deletedWithLiveReplies_replies db pid x h
    rw [hrepl, mem_liveReplies]

/-- C2, witness: in `exDb1`, the soft-deleted comment 2 (live reply 3) is in
the assembled candidate pool of a `newest` call, via `deleted_visibility`. -/
theorem deleted_visibility_witness :
    withReplies exDb1
      { id := 2, content := "D", deletedAt := some 5, createdAt := 2, userId := 1,
        policyId := 1, parentId := none, upvotes := 0, downvotes := 0 } ∈
      assembleCandidates exDb1 1 "newest" none :=
  (deleted_visibility exDb1 1 "newest" none (by decide)).2.1
    { id := 2, content := "D", deletedAt := some 5, createdAt := 2, userId := 1,
      policyId := 1, parentId := none, upvotes := 0, downvotes := 0 }
    (by decide) rfl rfl (by decide)
    ⟨{ id := 3, content := "E", deletedAt := none, createdAt := 3, userId := 1,
       policyId := 1, parentId := some 2, upvotes := 0, downvotes := 0 },
     by decide, rfl, rfl⟩

/-! Claim C4. -/

set_option maxRecDepth 1000000 in
/-- C4, counterexample: policy 1 of `exDb4` has 201 top-level comments; the
soft-deleted comment 300 is the oldest, so it is outside the 200 most-recent
top-level comments (under either reading, deleted included or not), yet it
appears in the `popular` output because the deleted-with-replies query is
unbounded. -/
theorem popular_window_counterexample :
    300 ∈ (commentsOf (listComments exDb4 1 "popular" none)).map (fun x => x.comment.id) ∧
    ¬ (300 ∈ ((mostRecentTop exDb4 1).take 200).map (fun c => c.id)) ∧
    ¬ (300 ∈ ((topLevelLive exDb4 1).take 200).map (fun c => c.id)) ∧
    200 < (mostRecentTop exDb4 1).length := by
  decide

/-- C4, amended: in `popular` output, whenever `a` precedes `b` then
`score(a) ≥ score(b)` with `score = upvotes − downvotes`; ties preserve the
candidate-pool (fetch) order; every returned comment is either among the 200
most-recent non-deleted top-level comments or a soft-deleted top-level
comment with a live reply — the latter are included without any window
bound. -/
theorem popular_ranking (db : DB) (pid : Nat) (cursor : Option Nat) :
    (commentsOf (listComments db pid "popular" cursor)).Pairwise
      (fun a b => popScore b.comment ≤ popScore a.comment) ∧
    (∀ a b, [a, b] <+ commentsOf (listComments db pid "popular" cursor) →
      popScore a.comment = popScore b.comment →
      [a, b] <+ assembleCandidates db pid "popular" cursor) ∧
    (∀ x ∈ commentsOf (listComments db pid "popular" cursor),
      x.comment ∈ (topLevelLive db pid).take 200 ∨
      (x.comment.deletedAt ≠ none ∧ hasLiveReply db x.comment.id = true)) := by
  cases hres : listComments db pid "popular" cursor with
  | notFound =>
      refine ⟨by simp [commentsOf], ?_, by simp [commentsOf]⟩
      intro a b hab htie
      simp [commentsOf] at hab
  | ok r =>
      rcases listComments_ok_elim db pid "popular" cursor r hres with ⟨hc, _, _, _⟩
      have hceq : r.comments =
          (stableSort popLe (assembleCandidates db pid "popular" cursor)).take 20 := by
        rw [hc, if_pos (Or.inl rfl)]
        unfold rankCandidates
        rw [if_pos rfl]
      have hsub : r.comments <+ stableSort popLe (assembleCandidates db pid "popular" cursor) := by
        rw [hceq]
        exact List.take_sublist _ _
      refine ⟨?_, ?_, ?_⟩
      · have hp := (pairwise_stableSort popLe popLe_total popLe_trans
          (assembleCandidates db pid "popular" cursor)).sublist hsub
        exact hp.imp (fun h => by simpa [popLe] using h)
      · intro a b hab htie
        have hab2 : [a, b] <+ stableSort popLe (assembleCandidates db pid "popular" cursor) :=
          (show [a, b] <+ r.comments from hab).trans hsub
        refine pair_sublist_stableSort popLe ?_ _ hab2
        simp [popLe, htie]
      · intro x hx
        rcases page_mem db pid "popular" cursor x (by rw [hres]; exact hx) with h | h
        · rw [fetchTopLevel_popular] at h
          rcases List.mem_map.mp h with ⟨c, hc2, rfl⟩
          exact Or.inl hc2
        · rcases (mem_deletedWithLiveReplies db pid x).mp h with ⟨c, _, _, _, hdel, hlr, rfl⟩
          exact Or.inr ⟨hdel, hlr⟩

/-! Claim C5. -/

/-- The spec's controversy formula, written as stated in the spec:
`(up + down) / (|up − down| + 1)` (refinement comparison target for
`controversyScore`). -/
def specControversyScore (c : Comment) : ℚ :=
  ((c.upvotes : ℚ) + (c.downvotes : ℚ)) / (|(c.upvotes : ℚ) - (c.downvotes : ℚ)| + 1)

theorem controversyScore_eq_spec (c : Comment) :
    controversyScore c = specControversyScore c := by
  unfold controversyScore specControversyScore
  by_cases h : c.upvotes + c.downvotes = 0
  · rcases Nat.add_eq_zero.mp h with ⟨h1, h2⟩
    rw [if_pos h, h1, h2]
    norm_num
  · rw [if_neg h]
    congr 1
    · push_cast
      ring
    · rw [Int.cast_natAbs]
      push_cast
      ring

/-- C5: `controversial` output is ordered by descending controversy score;
the code's score equals the spec formula `(up + down) / (|up − down| + 1)`
everywhere, and a comment with zero total votes scores exactly 0. -/
theorem controversial_ranking (db : DB) (pid : Nat) (cursor : Option Nat) :
    (commentsOf (listComments db pid "controversial" cursor)).Pairwise
      (fun a b => specControversyScore b.comment ≤ specControversyScore a.comment) ∧
    (∀ c : Comment, controversyScore c = specControversyScore c) ∧
    (∀ c : Comment, c.upvotes + c.downvotes = 0 → controversyScore c = 0) := by
  refine ⟨?_, controversyScore_eq_spec, ?_⟩
  · cases hres : listComments db pid "controversial" cursor with
    | notFound => simp [commentsOf]
    | ok r =>
        rcases listComments_ok_elim db pid "controversial" cursor r hres with ⟨hc, _, _, _⟩
        have hceq : r.comments =
            (stableSort contLe (assembleCandidates db pid "controversial" cursor)).take 20 := by
          rw [hc, if_pos (Or.inr rfl)]
          unfold rankCandidates
          rw [if_neg (by decide), if_pos rfl]
        have hsub : r.comments <+
            stableSort contLe (assembleCandidates db pid "controversial" cursor) := by
          rw [hceq]
          exact List.take_sublist _ _
        have hp := (pairwise_stableSort contLe contLe_total contLe_trans
          (assembleCandidates db pid "controversial" cursor)).sublist hsub
        refine hp.imp ?_
        intro a b h
        have h2 : controversyScore b.comment ≤ controversyScore a.comment := by
          simpa [contLe] using h
        rw [controversyScore_eq_spec, controversyScore_eq_spec] at h2
        exact h2
  · intro c h
    unfold controversyScore
    rw [if_pos h]

/-! Claim C6. -/

/-- C6: when the policy exists, `totalCount` equals the exact number of
non-deleted comments (top-level and replies) of the policy, for every sort
mode and cursor. -/
theorem totalCount_exact (db : DB) (pid : Nat) (h : (findPolicy db pid).isSome) :
    ∀ (sort : String) (cursor : Option Nat),
      totalCountOf (listComments db pid sort cursor) =
        some ((db.comments.filter
          (fun c => decide (c.policyId = pid ∧ c.deletedAt = none))).length) := by
  intro sort cursor
  rcases Option.isSome_iff_exists.mp h with ⟨p, hp⟩
  unfold listComments
  rw [hp]
  rfl

/-- C6, witness: on `exDb1` (comments A live, D deleted, E live reply),
`totalCount` is 2 under `popular` as well. -/
theorem totalCount_exact_witness :
    totalCountOf (listComments exDb1 1 "popular" none) = some 2 :=
  (totalCount_exact exDb1 1 (by decide) "popular" none).trans (by decide)

/-! Claim C7. -/

/-- C7, counterexample: sort mode "oldest" is not one of the three modes,
but List comments does not fail: it returns a normal page (processed like
`newest`), not an Invalid error. -/
theorem invalid_sort_counterexample :
    listComments exDb1 1 "oldest" none =
      .ok ⟨[⟨{ id := 1, content := "A", deletedAt := none, createdAt := 1, userId := 1,
               policyId := 1, parentId := none, upvotes := 0, downvotes := 0 }, []⟩,
            ⟨{ id := 2, content := "D", deletedAt := some 5, createdAt := 2, userId := 1,
               policyId := 1, parentId := none, upvotes := 0, downvotes := 0 },
             [{ id := 3, content := "E", deletedAt := none, createdAt := 3, userId := 1,
                policyId := 1, parentId := some 2, upvotes := 0, downvotes := 0 }]⟩],
           none, false, 2⟩ := by
  decide

theorem fetchTopLevel_unknown_sort (db : DB) (pid : Nat) (sort : String) (cursor : Option Nat)
    (h1 : sort ≠ "newest") (h2 : sort ≠ "popular") (h3 : sort ≠ "controversial") :
    fetchTopLevel db pid sort cursor = fetchTopLevel db pid "newest" none := by
  simp only [fetchTopLevel]
  have e1 : (if cursor.isSome ∧ sort = "newest"
      then applyCursor cursor (topLevelLive db pid) else topLevelLive db pid) =
      topLevelLive db pid := if_neg (fun h => h1 h.2)
  have e2 : (if (none : Option Nat).isSome = true ∧ True
      then applyCursor none (topLevelLive db pid) else topLevelLive db pid) =
      topLevelLive db pid := by
    rw [if_neg]
    rintro ⟨hcon, _⟩
    simp at hcon
  have e3 : (if sort = "popular" ∨ sort = "controversial" then 200 else 21) = 21 := by
    rw [if_neg]
    rintro (h | h)
    exacts [h2 h, h3 h]
  have e4 : (if ("newest" : String) = "popular" ∨ ("newest" : String) = "controversial"
      then 200 else 21) = 21 := by
    rw [if_neg (by decide)]
  rw [e1, e2, e3, e4]

/-- C7, amended: an unrecognized sort value is not rejected as Invalid; the
request is processed exactly like `newest` with the cursor ignored. -/
theorem unknown_sort_processed (db : DB) (pid : Nat) (sort : String) (cursor : Option Nat)
    (h1 : sort ≠ "newest") (h2 : sort ≠ "popular") (h3 : sort ≠ "controversial") :
    listComments db pid sort cursor = listComments db pid "newest" none := by
  have hass : assembleCandidates db pid sort cursor = assembleCandidates db pid "newest" none := by
    unfold assembleCandidates
    rw [fetchTopLevel_unknown_sort db pid sort cursor h1 h2 h3]
  have e5 : (sort = "popular" ∨ sort = "controversial") = False :=
    eq_false (by rintro (h | h); exacts [h2 h, h3 h])
  have e6 : (("newest" : String) = "popular" ∨ ("newest" : String) = "controversial") = False :=
    eq_false (by decide)
  unfold listComments
  cases hfp : findPolicy db pid with
  | none => rfl
  | some p =>
      simp only [hass, rankCandidates_other sort h2 h3,
        rankCandidates_other "newest" (by decide) (by decide), e5, e6, if_false]

/-- C7, witness: `unknown_sort_processed` applied to sort mode "oldest" on
`exDb1`. -/
theorem unknown_sort_processed_witness :
    listComments exDb1 1 "oldest" (some 1) = listComments exDb1 1 "newest" none :=
  unknown_sort_processed exDb1 1 "oldest" (some 1) (by decide) (by decide) (by decide)

/-! Claim C8. -/

/-- Depth invariant: every comment that names a parent names an existing
top-level comment, so no reply has replies of its own. -/
def NestingInv (db : DB) : Prop :=
  ∀ x ∈ db.comments, ∀ q, x.parentId = some q →
    ∃ p, p ∈ db.comments ∧ p.id = q ∧ p.parentId = none

theorem nestingInv_map (db : DB) (g : Comment → Comment)
    (hid : ∀ c, (g c).id = c.id) (hpar : ∀ c, (g c).parentId = c.parentId)
    (h : NestingInv db) : NestingInv { db with comments := db.comments.map g } := by
  intro x hx q hq
  rcases List.mem_map.mp hx with ⟨y, hy, rfl⟩
  rw [hpar y] at hq
  rcases h y hy q hq with ⟨p, hp1, hp2, hp3⟩
  refine ⟨g p, List.mem_map.mpr ⟨p, hp1, rfl⟩, ?_, ?_⟩
  · rw [hid p]
    exact hp2
  · rw [hpar p]
    exact hp3

theorem voteComment_db (db : DB) (clerkId : Option Nat) (cid : Nat) (dir : String) :
    (voteComment db clerkId cid dir).2 = db ∨
    (voteComment db clerkId cid dir).2 =
      { db with comments := db.comments.map (fun x => if x.id = cid then bumpVote dir x else x) } := by
  unfold voteComment
  split
  · exact Or.inl rfl
  · split
    · exact Or.inl rfl
    · split
      · exact Or.inl rfl
      · exact Or.inr rfl

theorem deleteComment_db (db : DB) (clerkId : Option Nat) (cid now : Nat) :
    (deleteComment db clerkId cid now).2 = db ∨
    (deleteComment db clerkId cid now).2 =
      { db with comments := db.comments.map (fun x => if x.id = cid then { x with deletedAt := some now } else x) } := by
  unfold deleteComment
  split
  · exact Or.inl rfl
  · split
    · exact Or.inl rfl
    · split
      · exact Or.inl rfl
      · split
        · exact Or.inl rfl
        · exact Or.inr rfl

/-- C8: a reply to a reply is rejected as Invalid; a missing, soft-deleted
or cross-policy parent is rejected as NotFound; an accepted comment's parent
(if any) is an existing top-level comment; and the depth invariant is
preserved by comment creation, voting and deletion. -/
theorem nesting_depth_invariant (db : DB) (ck pid : Nat) (s : String) (nuid ncid now : Nat)
    (hs1 : trimString s ≠ "") (hs2 : utf16Length (trimString s) ≤ 2000)
    (hpol : (db.policies.find?
      (fun p => decide (p.id = pid ∧ p.deletedAt = none ∧ p.published = true))).isSome) :
    (∀ pc, db.comments.find?
        (fun c => decide (c.id = pc ∧ c.policyId = pid ∧ c.deletedAt = none)) = none →
      createComment db (some ck) pid (.str s) (some pc) nuid ncid now = (.parentNotFound, db)) ∧
    (∀ pc parent, db.comments.find?
        (fun c => decide (c.id = pc ∧ c.policyId = pid ∧ c.deletedAt = none)) = some parent →
      parent.parentId ≠ none →
      createComment db (some ck) pid (.str s) (some pc) nuid ncid now = (.replyToReply, db)) ∧
    (∀ parentId c db2,
      createComment db (some ck) pid (.str s) parentId nuid ncid now = (.created c, db2) →
      (∀ q, c.parentId = some q → ∃ p, p ∈ db.comments ∧ p.id = q ∧ p.parentId = none) ∧
      (NestingInv db → NestingInv db2)) ∧
    (∀ u2 cid dir res db2, voteComment db (some u2) cid dir = (res, db2) →
      NestingInv db → NestingInv db2) ∧
    (∀ u2 cid res db2, deleteComment db (some u2) cid now = (res, db2) →
      NestingInv db → NestingInv db2) := by
  have hlen : ¬ (2000 < utf16Length (trimString s)) := not_lt.mpr hs2
  rcases Option.isSome_iff_exists.mp hpol with ⟨pol, hp⟩
  refine ⟨?_, ?_, ?_, ?_, ?_⟩
  · intro pc hfind
    simp only [createComment, if_neg hs1, if_neg hlen, hp, hfind]
  · intro pc parent hfind hpp
    simp only [createComment, if_neg hs1, if_neg hlen, hp, hfind, if_neg hpp]
  · intro parentId c db2 h
    simp only [createComment, if_neg hs1, if_neg hlen, hp] at h
    cases parentId with
    | none =>
        injection h with hc hdb
        injection hc with hc2
        subst hc2
        subst hdb
        constructor
        · intro q hq
          exact absurd hq (by simp)
        · intro hinv x hx q hq
          rcases List.mem_append.mp hx with hx2 | hx2
          · rcases hinv x hx2 q hq with ⟨p, hp1, hp2, hp3⟩
            exact ⟨p, List.mem_append_left _ hp1, hp2, hp3⟩
          · rcases List.mem_singleton.mp hx2 with rfl
            exact absurd hq (by simp)
    | some pc =>
        cases hfind : db.comments.find?
            (fun c => decide (c.id = pc ∧ c.policyId = pid ∧ c.deletedAt = none)) with
        | none =>
            simp only [hfind] at h
            simp at h
        | some parent =>
            simp only [hfind] at h
            by_cases hpp : parent.parentId = none
            · rw [if_pos hpp] at h
              injection h with hc hdb
              injection hc with hc2
              subst hc2
              subst hdb
              have hpred := List.find?_some hfind
              rw [decide_eq_true_eq] at hpred
              have hparent : ∀ q, (some pc : Option Nat) = some q →
                  ∃ p, p ∈ db.comments ∧ p.id = q ∧ p.parentId = none := by
                intro q hq
                injection hq with hq2
                subst hq2
                exact ⟨parent, List.mem_of_find?_eq_some hfind, hpred.1, hpp⟩
              constructor
              · exact hparent
              · intro hinv x hx q hq
                rcases List.mem_append.mp hx with hx2 | hx2
                · rcases hinv x hx2 q hq with ⟨p, hp1, hp2, hp3⟩
                  exact ⟨p, List.mem_append_left _ hp1, hp2, hp3⟩
                · rcases List.mem_singleton.mp hx2 with rfl
                  rcases hparent q hq with ⟨p, hp1, hp2, hp3⟩
                  exact ⟨p, List.mem_append_left _ hp1, hp2, hp3⟩
            · rw [if_neg hpp] at h
              simp at h
  · intro u2 cid dir res db2 h hinv
    have hdb2 : (voteComment db (some u2) cid dir).2 = db2 := by rw [h]
    rcases voteComment_db db (some u2) cid dir with h1 | h1
    · rw [← hdb2, h1]
      exact hinv
    · rw [← hdb2, h1]
      refine nestingInv_map db _ ?_ ?_ hinv
      · intro x
        by_cases hx : x.id = cid
        · simp only [if_pos hx]
          unfold bumpVote
          split_ifs <;> rfl
        · simp only [if_neg hx]
      · intro x
        by_cases hx : x.id = cid
        · simp only [if_pos hx]
          unfold bumpVote
          split_ifs <;> rfl
        · simp only [if_neg hx]
  · intro u2 cid res db2 h hinv
    have hdb2 : (deleteComment db (some u2) cid now).2 = db2 := by rw [h]
    rcases deleteComment_db db (some u2) cid now with h1 | h1
    · rw [← hdb2, h1]
      exact hinv
    · rw [← hdb2, h1]
      refine nestingInv_map db _ ?_ ?_ hinv
      · intro x
        by_cases hx : x.id = cid
        · simp only [if_pos hx]
        · simp only [if_neg hx]
      · intro x
        by_cases hx : x.id = cid
        · simp only [if_pos hx]
        · simp only [if_neg hx]

/-- C8, witness: in `exDb1`, replying to comment 3 (itself a reply) is
rejected as a reply-to-reply, via `nesting_depth_invariant`. -/
theorem nesting_depth_invariant_witness :
    createComment exDb1 (some 7) 1 (.str "hi") (some 3) 99 100 50 = (.replyToReply, exDb1) :=
  (nesting_depth_invariant exDb1 7 1 "hi" 99 100 50 (by decide) (by decide) (by decide)).2.1 3
    { id := 3, content := "E", deletedAt := none, createdAt := 3, userId := 1,
      policyId := 1, parentId := some 2, upvotes := 0, downvotes := 0 }
    (by decide) (by decide)

/-! Claim C9. -/

/-- The comment `exA` of `exDb1` (used by the C9 witness). -/
def exA : Comment :=
  { id := 1, content := "A", deletedAt := none, createdAt := 1, userId := 1,
    policyId := 1, parentId := none, upvotes := 0, downvotes := 0 }

/-- C9: an up vote on a live comment returns the pair with `upvotes`
incremented by exactly one and `downvotes` unchanged, and changes only that
comment's row (symmetrically for down); an invalid direction or a missing /
soft-deleted comment yields an Invalid / NotFound error with the database
unchanged. -/
theorem vote_increments (db : DB) (u cid : Nat)
    (hnd : (db.comments.map (fun c => c.id)).Nodup) :
    (∀ dir, dir ≠ "up" → dir ≠ "down" →
      voteComment db (some u) cid dir = (.invalidVote, db)) ∧
    (∀ dir, db.comments.find? (fun c => decide (c.id = cid ∧ c.deletedAt = none)) = none →
      voteComment db (some u) cid dir = (.notFound, db) ∨
      voteComment db (some u) cid dir = (.invalidVote, db)) ∧
    (∀ c, db.comments.find? (fun c => decide (c.id = cid ∧ c.deletedAt = none)) = some c →
      ∃ db2, voteComment db (some u) cid "up" = (.ok (c.upvotes + 1) c.downvotes, db2) ∧
        db2.policies = db.policies ∧ db2.users = db.users ∧
        db2.comments.length = db.comments.length ∧
        (∀ x ∈ db.comments, x.id ≠ cid → x ∈ db2.comments) ∧
        { c with upvotes := c.upvotes + 1 } ∈ db2.comments ∧
        (∀ y ∈ db2.comments, y ∈ db.comments ∨ y = { c with upvotes := c.upvotes + 1 })) ∧
    (∀ c, db.comments.find? (fun c => decide (c.id = cid ∧ c.deletedAt = none)) = some c →
      ∃ db2, voteComment db (some u) cid "down" = (.ok c.upvotes (c.downvotes + 1), db2) ∧
        db2.policies = db.policies ∧ db2.users = db.users ∧
        db2.comments.length = db.comments.length ∧
        (∀ x ∈ db.comments, x.id ≠ cid → x ∈ db2.comments) ∧
        { c with downvotes := c.downvotes + 1 } ∈ db2.comments ∧
        (∀ y ∈ db2.comments, y ∈ db.comments ∨ y = { c with downvotes := c.downvotes + 1 })) := by
  have hcid : ∀ c, db.comments.find?
      (fun c => decide (c.id = cid ∧ c.deletedAt = none)) = some c → c.id = cid := by
    intro c hfind
    have := List.find?_some hfind
    rw [decide_eq_true_eq] at this
    exact this.1
  refine ⟨?_, ?_, ?_, ?_⟩
  · intro dir h1 h2
    simp only [voteComment]
    rw [if_pos ⟨h1, h2⟩]
  · intro dir hfind
    simp only [voteComment]
    by_cases hdir : dir ≠ "up" ∧ dir ≠ "down"
    · rw [if_pos hdir]
      exact Or.inr rfl
    · rw [if_neg hdir, hfind]
      exact Or.inl rfl
  · intro c hfind
    have hid := hcid c hfind
    have hdir : ¬ (("up" : String) ≠ "up" ∧ ("up" : String) ≠ "down") := fun h => h.1 rfl
    refine ⟨{ db with comments := db.comments.map (fun x => if x.id = cid then bumpVote "up" x else x) },
      ?_, rfl, rfl, List.length_map _ _, ?_, ?_, ?_⟩
    · simp only [voteComment]
      rw [if_neg hdir, hfind]
      rfl
    · intro x hx hne
      refine List.mem_map.mpr ⟨x, hx, ?_⟩
      rw [if_neg hne]
    · refine List.mem_map.mpr ⟨c, List.mem_of_find?_eq_some hfind, ?_⟩
      rw [if_pos hid]
      rfl
    · intro y hy
      rcases List.mem_map.mp hy with ⟨x, hx, rfl⟩
      by_cases hne : x.id = cid
      · have hxc : x = c :=
          List.inj_on_of_nodup_map hnd hx (List.mem_of_find?_eq_some hfind)
            (by rw [hne, hid])
        subst hxc
        rw [if_pos hne]
        exact Or.inr rfl
      · rw [if_neg hne]
        exact Or.inl hx
  · intro c hfind
    have hid := hcid c hfind
    have hdir : ¬ (("down" : String) ≠ "up" ∧ ("down" : String) ≠ "down") := fun h => h.2 rfl
    refine ⟨{ db with comments := db.comments.map (fun x => if x.id = cid then bumpVote "down" x else x) },
      ?_, rfl, rfl, List.length_map _ _, ?_, ?_, ?_⟩
    · simp only [voteComment]
      rw [if_neg hdir, hfind]
      rfl
    · intro x hx hne
      refine List.mem_map.mpr ⟨x, hx, ?_⟩
      rw [if_neg hne]
    · refine List.mem_map.mpr ⟨c, List.mem_of_find?_eq_some hfind, ?_⟩
      rw [if_pos hid]
      rfl
    · intro y hy
      rcases List.mem_map.mp hy with ⟨x, hx, rfl⟩
      by_cases hne : x.id = cid
      · have hxc : x = c :=
          List.inj_on_of_nodup_map hnd hx (List.mem_of_find?_eq_some hfind)
            (by rw [hne, hid])
        subst hxc
        rw [if_pos hne]
        exact Or.inr rfl
      · rw [if_neg hne]
        exact Or.inl hx

/-- C9, witness: an up vote on comment 1 of `exDb1` returns counters (1, 0)
and updates only that row, via `vote_increments`. -/
theorem vote_increments_witness :
    ∃ db2, voteComment exDb1 (some 7) 1 "up" = (.ok (exA.upvotes + 1) exA.downvotes, db2) ∧
      db2.policies = exDb1.policies ∧ db2.users = exDb1.users ∧
      db2.comments.length = exDb1.comments.length ∧
      (∀ x ∈ exDb1.comments, x.id ≠ 1 → x ∈ db2.comments) ∧
      { exA with upvotes := exA.upvotes + 1 } ∈ db2.comments ∧
      (∀ y ∈ db2.comments, y ∈ exDb1.comments ∨ y = { exA with upvotes := exA.upvotes + 1 }) :=
  (vote_increments exDb1 7 1 (by decide)).2.2.1 exA (by decide)

/-! Claim C10. -/

/-- C10: Create comment rejects a missing, non-string or whitespace-only
`content` (JS whitespace set) and a trimmed content longer than 2000 UTF-16
code units, JS `.length` (400 / Invalid, database unchanged); every accepted
comment stores exactly the trimmed input as its content and is appended to
the table. -/
theorem create_content_validation (db : DB) (ck pid : Nat) (parentId : Option Nat)
    (nuid ncid now : Nat) :
    (createComment db (some ck) pid .missing parentId nuid ncid now = (.invalidContent, db)) ∧
    (createComment db (some ck) pid .nonString parentId nuid ncid now = (.invalidContent, db)) ∧
    (∀ s, trimString s = "" →
      createComment db (some ck) pid (.str s) parentId nuid ncid now = (.invalidContent, db)) ∧
    (∀ s, trimString s ≠ "" → 2000 < utf16Length (trimString s) →
      createComment db (some ck) pid (.str s) parentId nuid ncid now = (.contentTooLong, db)) ∧
    (∀ s c db2,
      createComment db (some ck) pid (.str s) parentId nuid ncid now = (.created c, db2) →
      c.content = trimString s ∧ c ∈ db2.comments) := by
  refine ⟨rfl, rfl, ?_, ?_, ?_⟩
  · intro s h
    simp only [createComment]
    rw [if_pos h]
  · intro s h1 h2
    simp only [createComment]
    rw [if_neg h1, if_pos h2]
  · intro s c db2 h
    by_cases h1 : trimString s = ""
    · simp only [createComment, if_pos h1] at h
      simp at h
    · by_cases h2 : 2000 < utf16Length (trimString s)
      · simp only [createComment, if_neg h1, if_pos h2] at h
        simp at h
      · simp only [createComment, if_neg h1, if_neg h2] at h
        cases hpol : db.policies.find?
            (fun p => decide (p.id = pid ∧ p.deletedAt = none ∧ p.published = true)) with
        | none =>
            simp only [hpol] at h
            simp at h
        | some pol =>
            simp only [hpol] at h
            cases parentId with
            | none =>
                injection h with hc hdb
                injection hc with hc2
                subst hc2
                subst hdb
                exact ⟨rfl, List.mem_append_right _ (List.mem_singleton.mpr rfl)⟩
            | some pc =>
                cases hfind : db.comments.find?
                    (fun c => decide (c.id = pc ∧ c.policyId = pid ∧ c.deletedAt = none)) with
                | none =>
                    simp only [hfind] at h
                    simp at h
                | some parent =>
                    simp only [hfind] at h
                    by_cases hpp : parent.parentId = none
                    · rw [if_pos hpp] at h
                      injection h with hc hdb
                      injection hc with hc2
                      subst hc2
                      subst hdb
                      exact ⟨rfl, List.mem_append_right _ (List.mem_singleton.mpr rfl)⟩
                    · rw [if_neg hpp] at h
                      simp at h
